import Mathlib

/-!
Verification of the release-date aggregation and classification engine of
the Release Date Finder add-on (`server.js`).

The core consists of:
* `groupCandidates` — collapses raw (date, region) candidates into date
  groups, sorted ascending by date with deduplicated, sorted region lists;
* the movie classifier (inlined in `handleStreamRequest`) — selects the
  earliest theatrical group and walks the digital groups, flagging those
  strictly before the theatrical date as suspicious and stopping at the
  first group at or after it;
* the series classifier — picks the next/last episode air date and derives
  the season label from the distinct air dates of the last season.

Dates are modelled as integers (the millisecond timestamps that
`a.date - b.date` and `getTime()` compare in the source); regions are
strings. JavaScript's `Array.prototype.sort` is a stable sort, modelled by
`List.mergeSort`. In-place mutation of the caller's candidate array is
modelled by state passing: `groupCandidatesRun` returns both the groups and
the final contents of the caller's array.
-/

namespace RDF

/-- One raw observation: `{ date: d, country: c }` as pushed onto the
`theatrical` / `digital` arrays in `handleStreamRequest`. -/
structure Candidate where
  date : Int
  country : String
deriving DecidableEq

/-- A group as built by `groupCandidates`:
`{ date, countries, isSuspicious }`. -/
structure DateGroup where
  date : Int
  countries : List String
  isSuspicious : Bool
deriving DecidableEq

/-- The comparator `(a, b) => a.date - b.date` used on candidate arrays. -/
def candLe (a b : Candidate) : Bool := decide (a.date ≤ b.date)

/-- The comparator `(a, b) => a.date - b.date` used on the groups array. -/
def grpLe (a b : DateGroup) : Bool := decide (a.date ≤ b.date)

/-- JavaScript's default string comparison used by `countries.sort()`. -/
def strLe (a b : String) : Bool := decide (a ≤ b)

/-- `if (!currentGroup.countries.includes(cand.country))
currentGroup.countries.push(cand.country)`. -/
def pushCountry (g : DateGroup) (c : String) : DateGroup :=
  if g.countries.contains c then g
  else { g with countries := g.countries ++ [c] }

/-- The `candidates.forEach` loop of `groupCandidates`: the open
`currentGroup` (if any) and the `groups` array accumulated so far are the
explicit state. -/
def scanCandidates : List Candidate → Option DateGroup → List DateGroup → List DateGroup
  | [], none, groups => groups
  | [], some g, groups => groups ++ [g]
  | cand :: rest, none, groups =>
      scanCandidates rest
        (some { date := cand.date, countries := [cand.country], isSuspicious := false }) groups
  | cand :: rest, some g, groups =>
      if cand.date == g.date then
        scanCandidates rest (some (pushCountry g cand.country)) groups
      else
        scanCandidates rest
          (some { date := cand.date, countries := [cand.country], isSuspicious := false })
          (groups ++ [g])

/-- `groupCandidates`, with the mutation of the caller's array made
explicit: the first component is the returned groups array, the second is
the contents of the caller's `candidates` array after the call
(`candidates.sort(...)` sorts it in place before the scan). -/
def groupCandidatesRun (candidates : List Candidate) : List DateGroup × List Candidate :=
  if candidates.isEmpty then ([], candidates)
  else
    let sorted := candidates.mergeSort candLe
    let groups := scanCandidates sorted none []
    let groups2 := groups.mergeSort grpLe
    (groups2.map fun g => { g with countries := g.countries.mergeSort strLe }, sorted)

/-- The value returned by `groupCandidates`. -/
def groupCandidates (candidates : List Candidate) : List DateGroup :=
  (groupCandidatesRun candidates).1

/-- The movie output: `finalTheat` and `finalDig` from
`handleStreamRequest`. -/
structure ReleaseSummary where
  finalTheat : Option DateGroup
  finalDig : List DateGroup
deriving DecidableEq

/-- The `for` loop over `gDig` when `finalTheat` exists: groups strictly
before the theatrical date are marked suspicious and kept; the first group
at or after it is unmarked, kept, and ends the walk. -/
def walkDigital (t : DateGroup) : List DateGroup → List DateGroup
  | [] => []
  | g :: rest =>
      if g.date < t.date then
        { g with isSuspicious := true } :: walkDigital t rest
      else
        [{ g with isSuspicious := false }]

/-- The classification step of the movie branch, applied to the already
grouped theatrical and digital lists: `finalTheat = gTheat[0] || null`,
then the digital walk (or just `gDig[0]` when there is no theatrical
group). -/
def classifyGroups (gTheat gDig : List DateGroup) : ReleaseSummary :=
  let finalTheat := gTheat.head?
  let finalDig :=
    if gDig.isEmpty then []
    else
      match finalTheat with
      | some t => walkDigital t gDig
      | none => gDig.take 1
  { finalTheat := finalTheat, finalDig := finalDig }

/-- The whole movie pipeline: group both candidate lists, then classify. -/
def classifyMovie (theatrical digital : List Candidate) : ReleaseSummary :=
  classifyGroups (groupCandidates theatrical) (groupCandidates digital)

/-- The series output: `targetDate` and `labelText` from the series branch
(`labelText = ""` models the absent label). -/
structure SeriesSummary where
  targetDate : Option Int
  labelText : String
deriving DecidableEq

/-- The distinct air dates collected from a season payload:
`if (seasonData.episodes) seasonData.episodes.forEach(e => { if (e.air_date)
airDates.add(e.air_date) })`. `none` models an absent `episodes` field; an
episode's `air_date` is `none` when missing and the empty string is falsy
in the guard. -/
def seasonAirDates (episodes : Option (List (Option String))) : List String :=
  match episodes with
  | none => []
  | some eps => ((eps.filterMap id).filter fun s => !s.isEmpty).dedup

/-- The series branch of `handleStreamRequest`: `nextEp` / `lastEp` are the
air dates of `next_episode_to_air` / `last_episode_to_air` when present;
`seasonLookup` is the outcome of the guarded season fetch (`Except.error`
models any exception caught by the surrounding `try`). -/
def classifySeries (nextEp lastEp : Option Int)
    (seasonLookup : Except Unit (Option (List (Option String)))) : SeriesSummary :=
  match nextEp with
  | some d => { targetDate := some d, labelText := "" }
  | none =>
    match lastEp with
    | some d =>
        let label :=
          match seasonLookup with
          | Except.ok eps =>
              if (seasonAirDates eps).length = 1 then "(Last Season)"
              else "(Last Episode, Last Season)"
          | Except.error _ => "(Last Episode, Last Season)"
        { targetDate := some d, labelText := label }
    | none => { targetDate := none, labelText := "" }

/-- The distinct dates of a candidate list, in ascending order — the
canonical date skeleton the spec describes for the grouper's output. -/
def specDates (l : List Candidate) : List Int :=
  ((l.map Candidate.date).dedup).mergeSort fun a b => decide (a ≤ b)

/-- The deduplicated, sorted regions observed for date `d` in `l`. -/
def specCountries (l : List Candidate) (d : Int) : List String :=
  (((l.filter fun c => c.date == d).map Candidate.country).dedup).mergeSort strLe

/-- The canonical group for date `d` of candidate list `l`. -/
def mkSpecGroup (l : List Candidate) (d : Int) : DateGroup :=
  { date := d, countries := specCountries l d, isSuspicious := false }

/-- The grouper's output described canonically: one group per distinct
date, ascending, with deduplicated sorted regions, suspicious flag off. -/
def groupSpec (l : List Candidate) : List DateGroup :=
  (specDates l).map (mkSpecGroup l)

/-! ### Basic lemmas about `pushCountry` and the scan -/

theorem pushCountry_date (g : DateGroup) (c : String) : (pushCountry g c).date = g.date := by
  unfold pushCountry; split <;> rfl

theorem pushCountry_isSuspicious (g : DateGroup) (c : String) :
    (pushCountry g c).isSuspicious = g.isSuspicious := by
  unfold pushCountry; split <;> rfl

theorem pushCountry_mem (g : DateGroup) (c st : String) :
    st ∈ (pushCountry g c).countries ↔ st ∈ g.countries ∨ st = c := by
  unfold pushCountry; split
  · rename_i h
    have hc : c ∈ g.countries := by simpa using h
    constructor
    · exact fun hst => Or.inl hst
    · rintro (hst | rfl)
      · exact hst
      · exact hc
  · simp

theorem pushCountry_nodup (g : DateGroup) (c : String) (h : g.countries.Nodup) :
    (pushCountry g c).countries.Nodup := by
  unfold pushCountry; split
  · exact h
  · rename_i hc
    have hc' : c ∉ g.countries := by simpa using hc
    simpa [List.nodup_append] using ⟨h, hc'⟩

theorem scanCandidates_append (l : List Candidate) (st : Option DateGroup)
    (acc : List DateGroup) :
    scanCandidates l st acc = acc ++ scanCandidates l st [] := by
  induction l generalizing st acc with
  | nil => cases st <;> simp [scanCandidates]
  | cons c rest ih =>
    cases st with
    | none =>
      simp only [scanCandidates]
      exact ih _ _
    | some g =>
      by_cases h : (c.date == g.date) = true
      · simp only [scanCandidates, if_pos h]
        exact ih _ _
      · simp only [scanCandidates, if_neg h]
        rw [ih _ (acc ++ [g]), ih _ ([] ++ [g])]
        simp

/-! ### Lemmas about the digital walk -/

theorem walkDigital_eq (t : DateGroup) (l : List DateGroup) :
    walkDigital t l =
      ((l.takeWhile fun g => decide (g.date < t.date)).map
        fun g => { g with isSuspicious := true })
      ++ ((l.dropWhile fun g => decide (g.date < t.date)).take 1).map
        fun g => { g with isSuspicious := false } := by
  induction l with
  | nil => rfl
  | cons g rest ih =>
    by_cases h : g.date < t.date
    · simp [walkDigital, List.takeWhile_cons, List.dropWhile_cons, h, ih]
    · simp [walkDigital, List.takeWhile_cons, List.dropWhile_cons, h]

theorem walkDigital_idem (t : DateGroup) (l : List DateGroup) :
    walkDigital t (walkDigital t l) = walkDigital t l := by
  induction l with
  | nil => rfl
  | cons g rest ih =>
    by_cases h : g.date < t.date
    · simp [walkDigital, h, ih]
    · simp [walkDigital, h]

theorem walkDigital_map_date_sublist (t : DateGroup) (l : List DateGroup) :
    List.Sublist ((walkDigital t l).map DateGroup.date) (l.map DateGroup.date) := by
  induction l with
  | nil => simp [walkDigital]
  | cons g rest ih =>
    by_cases h : g.date < t.date
    · simpa [walkDigital, h] using ih.cons₂ g.date
    · simp only [walkDigital, if_neg h, List.map_cons, List.map_nil]
      exact (List.nil_sublist _).cons₂ g.date

/-! ### Characterization of the scan on a date-sorted candidate list -/

theorem scanCandidates_spec (s : List Candidate) (g : DateGroup)
    (hsort : s.Pairwise fun a b => a.date ≤ b.date)
    (hge : ∀ c ∈ s, g.date ≤ c.date)
    (hnodup : g.countries.Nodup)
    (hsusp : g.isSuspicious = false) :
    ((scanCandidates s (some g) []).map DateGroup.date).Pairwise (· < ·)
    ∧ (∀ d : Int, d ∈ (scanCandidates s (some g) []).map DateGroup.date ↔
        d = g.date ∨ d ∈ s.map Candidate.date)
    ∧ (∀ h ∈ scanCandidates s (some g) [], h.isSuspicious = false ∧ h.countries.Nodup
        ∧ ∀ st : String, st ∈ h.countries ↔
            ((h.date = g.date ∧ st ∈ g.countries) ∨ ∃ c ∈ s, c.date = h.date ∧ c.country = st)) := by
  induction s generalizing g with
  | nil =>
    refine ⟨by simp [scanCandidates], by simp [scanCandidates], ?_⟩
    intro h hh
    simp only [scanCandidates, List.nil_append, List.mem_singleton] at hh
    subst hh
    exact ⟨hsusp, hnodup, fun st => by simp⟩
  | cons c rest ih =>
    obtain ⟨hc_rest, hsort'⟩ := List.pairwise_cons.mp hsort
    have hgc : g.date ≤ c.date := hge c (List.mem_cons_self c rest)
    have hger : ∀ x ∈ rest, g.date ≤ x.date := fun x hx => hge x (List.mem_cons_of_mem c hx)
    by_cases hb : (c.date == g.date) = true
    · have hcg : c.date = g.date := by simpa using hb
      simp only [scanCandidates, if_pos hb]
      obtain ⟨IH1, IH2, IH3⟩ := ih (pushCountry g c.country) hsort'
        (fun x hx => by rw [pushCountry_date]; exact hger x hx)
        (pushCountry_nodup g c.country hnodup)
        (by rw [pushCountry_isSuspicious]; exact hsusp)
      refine ⟨IH1, ?_, ?_⟩
      · intro d
        rw [IH2 d, pushCountry_date]
        simp only [List.map_cons, List.mem_cons, hcg]
        tauto
      · intro h hh
        obtain ⟨s1, s2, s3⟩ := IH3 h hh
        refine ⟨s1, s2, fun st => ?_⟩
        rw [s3 st, pushCountry_date]
        simp only [pushCountry_mem, List.exists_mem_cons_iff, hcg]
        constructor
        · rintro (⟨hd, hA | hA⟩ | hE)
          · exact Or.inl ⟨hd, hA⟩
          · exact Or.inr (Or.inl ⟨hd.symm, hA.symm⟩)
          · exact Or.inr (Or.inr hE)
        · rintro (⟨hd, hA⟩ | ⟨hd, hA⟩ | hE)
          · exact Or.inl ⟨hd, Or.inl hA⟩
          · exact Or.inl ⟨hd.symm, Or.inr hA.symm⟩
          · exact Or.inr hE
    · have hne : c.date ≠ g.date := by simpa using hb
      have hlt : g.date < c.date := lt_of_le_of_ne hgc (Ne.symm hne)
      simp only [scanCandidates, if_neg hb, List.nil_append]
      rw [scanCandidates_append]
      obtain ⟨IH1, IH2, IH3⟩ := ih
        { date := c.date, countries := [c.country], isSuspicious := false }
        hsort' (fun x hx => hc_rest x hx) (by simp) (by simp)
      have hTd : ∀ d ∈ (scanCandidates rest
          (some { date := c.date, countries := [c.country], isSuspicious := false })
          []).map DateGroup.date, c.date ≤ d := by
        intro d hd
        rcases (IH2 d).mp hd with h | h
        · exact le_of_eq h.symm
        · obtain ⟨x, hx, rfl⟩ := List.mem_map.mp h
          exact hc_rest x hx
      refine ⟨?_, ?_, ?_⟩
      · simp only [List.singleton_append, List.map_cons]
        refine List.pairwise_cons.mpr ⟨?_, IH1⟩
        intro d hd
        exact lt_of_lt_of_le hlt (hTd d hd)
      · intro d
        simp only [List.singleton_append, List.map_cons, List.mem_cons]
        rw [IH2 d]
      · intro h hh
        simp only [List.singleton_append, List.mem_cons] at hh
        rcases hh with rfl | hh
        · refine ⟨hsusp, hnodup, fun st => ?_⟩
          have hno : ∀ x ∈ c :: rest, x.date ≠ h.date := by
            intro x hx
            rcases List.mem_cons.mp hx with rfl | hx
            · exact hne
            · exact ne_of_gt (lt_of_lt_of_le hlt (hc_rest x hx))
          constructor
          · exact fun hst => Or.inl ⟨rfl, hst⟩
          · rintro (⟨_, hst⟩ | ⟨x, hx, hxd, _⟩)
            · exact hst
            · exact absurd hxd (hno x hx)
        · obtain ⟨s1, s2, s3⟩ := IH3 h hh
          have hhd : c.date ≤ h.date := hTd h.date (List.mem_map_of_mem DateGroup.date hh)
          have hhg : h.date ≠ g.date := ne_of_gt (lt_of_lt_of_le hlt hhd)
          refine ⟨s1, s2, fun st => ?_⟩
          rw [s3 st]
          simp only [List.mem_singleton, List.exists_mem_cons_iff]
          constructor
          · rintro (⟨hd, hA⟩ | hE)
            · exact Or.inr (Or.inl ⟨hd.symm, hA.symm⟩)
            · exact Or.inr (Or.inr hE)
          · rintro (⟨hd, _⟩ | ⟨hd, hA⟩ | hE)
            · exact absurd hd hhg
            · exact Or.inl ⟨hd.symm, hA.symm⟩
            · exact Or.inr hE

/-! ### Generic sorting helpers -/

theorem pairwise_mergeSort_key {α β : Type} [LinearOrder β] (key : α → β) (l : List α) :
    (l.mergeSort fun a b => decide (key a ≤ key b)).Pairwise fun a b => key a ≤ key b := by
  have h : (l.mergeSort fun a b => decide (key a ≤ key b)).Pairwise
      fun a b => (fun x y => decide (key x ≤ key y)) a b = true := by
    apply List.sorted_mergeSort
    · intro a b c h₁ h₂
      simp only [decide_eq_true_eq] at *
      exact le_trans h₁ h₂
    · intro a b
      rcases le_total (key a) (key b) with h | h <;> simp [h]
  exact h.imp fun hab => by simpa using hab

theorem sorted_nodup_eq_of_mem_iff {α : Type} [LinearOrder α] {l₁ l₂ : List α}
    (h₁s : l₁.Pairwise (· ≤ ·)) (h₂s : l₂.Pairwise (· ≤ ·))
    (h₁n : l₁.Nodup) (h₂n : l₂.Nodup) (hmem : ∀ a, a ∈ l₁ ↔ a ∈ l₂) : l₁ = l₂ :=
  List.eq_of_perm_of_sorted ((List.perm_ext_iff_of_nodup h₁n h₂n).mpr hmem) h₁s h₂s

/-! ### The scan started with no open group -/

theorem scanCandidates_none_spec (s : List Candidate)
    (hsort : s.Pairwise fun a b => a.date ≤ b.date) :
    ((scanCandidates s none []).map DateGroup.date).Pairwise (· < ·)
    ∧ (∀ d : Int, d ∈ (scanCandidates s none []).map DateGroup.date ↔
        d ∈ s.map Candidate.date)
    ∧ (∀ h ∈ scanCandidates s none [], h.isSuspicious = false ∧ h.countries.Nodup
        ∧ ∀ st : String, st ∈ h.countries ↔ ∃ c ∈ s, c.date = h.date ∧ c.country = st) := by
  cases s with
  | nil =>
    exact ⟨by simp [scanCandidates], by simp [scanCandidates], by simp [scanCandidates]⟩
  | cons c rest =>
    obtain ⟨hc_rest, hsort'⟩ := List.pairwise_cons.mp hsort
    obtain ⟨H1, H2, H3⟩ := scanCandidates_spec rest
      { date := c.date, countries := [c.country], isSuspicious := false }
      hsort' (fun x hx => hc_rest x hx) (by simp) (by simp)
    simp only [scanCandidates]
    refine ⟨H1, ?_, ?_⟩
    · intro d
      rw [H2 d]
      simp [List.mem_cons]
    · intro h hh
      obtain ⟨s1, s2, s3⟩ := H3 h hh
      refine ⟨s1, s2, fun st => ?_⟩
      rw [s3 st]
      simp only [List.mem_singleton, List.exists_mem_cons_iff]
      constructor
      · rintro (⟨hd, hA⟩ | hE)
        · exact Or.inl ⟨hd.symm, hA.symm⟩
        · exact Or.inr hE
      · rintro (⟨hd, hA⟩ | hE)
        · exact Or.inl ⟨hd.symm, hA.symm⟩
        · exact Or.inr hE

/-! ### Characterization of `groupCandidates` -/

theorem groupCandidates_nil : groupCandidates [] = [] := rfl

theorem groupCandidates_cons_eq (c : Candidate) (rest : List Candidate) :
    groupCandidates (c :: rest) =
      ((scanCandidates ((c :: rest).mergeSort candLe) none []).mergeSort grpLe).map
        fun g => { g with countries := g.countries.mergeSort strLe } := by
  simp [groupCandidates, groupCandidatesRun]

theorem groupCandidates_chars (l : List Candidate) :
    ((groupCandidates l).map DateGroup.date).Pairwise (· < ·)
    ∧ (∀ d : Int, d ∈ (groupCandidates l).map DateGroup.date ↔ d ∈ l.map Candidate.date)
    ∧ (∀ g ∈ groupCandidates l, g.isSuspicious = false ∧ g.countries.Nodup
        ∧ g.countries.Pairwise (· ≤ ·)
        ∧ ∀ st : String, st ∈ g.countries ↔ ∃ c ∈ l, c.date = g.date ∧ c.country = st)
    ∧ (groupCandidates l).length = (l.map Candidate.date).dedup.length := by
  cases l with
  | nil =>
    refine ⟨by simp [groupCandidates_nil], by simp [groupCandidates_nil],
      by simp [groupCandidates_nil], by simp [groupCandidates_nil]⟩
  | cons c0 rest0 =>
    have hs_sort : ((c0 :: rest0).mergeSort candLe).Pairwise
        fun a b => a.date ≤ b.date :=
      pairwise_mergeSort_key Candidate.date (c0 :: rest0)
    obtain ⟨H1, H2, H3⟩ := scanCandidates_none_spec _ hs_sort
    set G := scanCandidates ((c0 :: rest0).mergeSort candLe) none [] with hG
    have hGsorted : G.Pairwise fun a b => grpLe a b = true := by
      have h := (List.pairwise_map.mp H1).imp
        (fun {a b} hab => le_of_lt hab)
      exact h.imp fun {a b} hab => by simpa [grpLe] using hab
    have hGm : G.mergeSort grpLe = G := List.mergeSort_of_sorted hGsorted
    have hEq : groupCandidates (c0 :: rest0) =
        G.map fun g => { g with countries := g.countries.mergeSort strLe } := by
      rw [groupCandidates_cons_eq, ← hG, hGm]
    have hdates : (G.map fun g =>
        { g with countries := g.countries.mergeSort strLe }).map DateGroup.date =
        G.map DateGroup.date := by
      rw [List.map_map]
      rfl
    have hmemdate : ∀ d : Int,
        d ∈ ((c0 :: rest0).mergeSort candLe).map Candidate.date ↔
          d ∈ (c0 :: rest0).map Candidate.date :=
      fun d => ((List.mergeSort_perm (c0 :: rest0) candLe).map Candidate.date).mem_iff
    have hmemcand : ∀ c : Candidate,
        c ∈ (c0 :: rest0).mergeSort candLe ↔ c ∈ c0 :: rest0 :=
      fun c => (List.mergeSort_perm (c0 :: rest0) candLe).mem_iff
    refine ⟨?_, ?_, ?_, ?_⟩
    · rw [hEq, hdates]
      exact H1
    · intro d
      rw [hEq, hdates, H2 d]
      exact hmemdate d
    · intro g hg
      rw [hEq] at hg
      obtain ⟨g0, hg0, rfl⟩ := List.mem_map.mp hg
      obtain ⟨s1, s2, s3⟩ := H3 g0 hg0
      refine ⟨s1, ?_, ?_, ?_⟩
      · exact ((List.mergeSort_perm g0.countries strLe).nodup_iff).mpr s2
      · exact pairwise_mergeSort_key (fun st : String => st) g0.countries
      · intro st
        have hmem : st ∈ g0.countries.mergeSort strLe ↔ st ∈ g0.countries :=
          (List.mergeSort_perm g0.countries strLe).mem_iff
        rw [hmem, s3 st]
        constructor
        · rintro ⟨c, hc, hcd, hcs⟩
          exact ⟨c, (hmemcand c).mp hc, hcd, hcs⟩
        · rintro ⟨c, hc, hcd, hcs⟩
          exact ⟨c, (hmemcand c).mpr hc, hcd, hcs⟩
    · rw [hEq]
      have hnd : (G.map DateGroup.date).Nodup :=
        List.Pairwise.imp (fun {a b} hab => ne_of_lt hab) H1
      have hnd2 : ((c0 :: rest0).map Candidate.date).dedup.Nodup := List.nodup_dedup _
      have hperm : (G.map DateGroup.date).Perm ((c0 :: rest0).map Candidate.date).dedup := by
        refine (List.perm_ext_iff_of_nodup hnd hnd2).mpr fun d => ?_
        rw [H2 d, List.mem_dedup]
        exact hmemdate d
      calc (G.map fun g => { g with countries := g.countries.mergeSort strLe }).length
          = G.length := List.length_map _ _
        _ = (G.map DateGroup.date).length := (List.length_map _ _).symm
        _ = ((c0 :: rest0).map Candidate.date).dedup.length := hperm.length_eq

/-! ### The canonical form `groupSpec` -/

theorem specDates_sorted (l : List Candidate) : (specDates l).Pairwise (· ≤ ·) :=
  pairwise_mergeSort_key (fun d : Int => d) _

theorem specDates_nodup (l : List Candidate) : (specDates l).Nodup :=
  (List.mergeSort_perm _ _).nodup_iff.mpr (List.nodup_dedup _)

theorem specDates_mem (l : List Candidate) (d : Int) :
    d ∈ specDates l ↔ d ∈ l.map Candidate.date := by
  unfold specDates
  rw [(List.mergeSort_perm _ _).mem_iff, List.mem_dedup]

theorem specCountries_sorted (l : List Candidate) (d : Int) :
    (specCountries l d).Pairwise (· ≤ ·) :=
  pairwise_mergeSort_key (fun st : String => st) _

theorem specCountries_nodup (l : List Candidate) (d : Int) : (specCountries l d).Nodup :=
  (List.mergeSort_perm _ _).nodup_iff.mpr (List.nodup_dedup _)

theorem specCountries_mem (l : List Candidate) (d : Int) (st : String) :
    st ∈ specCountries l d ↔ ∃ c ∈ l, c.date = d ∧ c.country = st := by
  unfold specCountries
  rw [(List.mergeSort_perm _ _).mem_iff, List.mem_dedup]
  simp only [List.mem_map, List.mem_filter, beq_iff_eq]
  constructor
  · rintro ⟨c, ⟨hc, hcd⟩, hcs⟩
    exact ⟨c, hc, hcd, hcs⟩
  · rintro ⟨c, hc, hcd, hcs⟩
    exact ⟨c, ⟨hc, hcd⟩, hcs⟩

theorem groupCandidates_eq_groupSpec (l : List Candidate) :
    groupCandidates l = groupSpec l := by
  obtain ⟨H1, H2, H3, _⟩ := groupCandidates_chars l
  have hdates : (groupCandidates l).map DateGroup.date = specDates l := by
    refine sorted_nodup_eq_of_mem_iff (H1.imp fun {a b} hab => le_of_lt hab)
      (specDates_sorted l) (H1.imp fun {a b} hab => ne_of_lt hab) (specDates_nodup l)
      fun d => ?_
    rw [H2 d, specDates_mem]
  have hgroups : ∀ g ∈ groupCandidates l, g = mkSpecGroup l g.date := by
    intro g hg
    obtain ⟨s1, s2, s3, s4⟩ := H3 g hg
    have hc : g.countries = specCountries l g.date := by
      refine sorted_nodup_eq_of_mem_iff s3 (specCountries_sorted l _) s2
        (specCountries_nodup l _) fun st => ?_
      rw [s4 st, specCountries_mem]
    cases g with
    | mk gd gc gs =>
      simp only [mkSpecGroup, DateGroup.mk.injEq]
      exact ⟨trivial, hc, s1⟩
  calc groupCandidates l
      = (groupCandidates l).map (fun g => mkSpecGroup l g.date) := by
        rw [← List.map_id (groupCandidates l)]
        rw [List.map_map]
        exact List.map_congr_left fun g hg => hgroups g hg
    _ = ((groupCandidates l).map DateGroup.date).map (mkSpecGroup l) := by
        rw [List.map_map]
        rfl
    _ = (specDates l).map (mkSpecGroup l) := by rw [hdates]
    _ = groupSpec l := rfl

theorem groupSpec_perm {l₁ l₂ : List Candidate} (hp : l₁.Perm l₂) :
    groupSpec l₁ = groupSpec l₂ := by
  have hdates : specDates l₁ = specDates l₂ := by
    refine sorted_nodup_eq_of_mem_iff (specDates_sorted _) (specDates_sorted _)
      (specDates_nodup _) (specDates_nodup _) fun d => ?_
    rw [specDates_mem, specDates_mem]
    exact (hp.map Candidate.date).mem_iff
  have hcountries : ∀ d : Int, specCountries l₁ d = specCountries l₂ d := by
    intro d
    refine sorted_nodup_eq_of_mem_iff (specCountries_sorted _ _) (specCountries_sorted _ _)
      (specCountries_nodup _ _) (specCountries_nodup _ _) fun st => ?_
    rw [specCountries_mem, specCountries_mem]
    constructor
    · rintro ⟨c, hc, hcd, hcs⟩
      exact ⟨c, hp.mem_iff.mp hc, hcd, hcs⟩
    · rintro ⟨c, hc, hcd, hcs⟩
      exact ⟨c, hp.mem_iff.mpr hc, hcd, hcs⟩
  unfold groupSpec
  rw [hdates]
  exact List.map_congr_left fun d _ => by simp [mkSpecGroup, hcountries d]

theorem groupCandidates_perm {l₁ l₂ : List Candidate} (hp : l₁.Perm l₂) :
    groupCandidates l₁ = groupCandidates l₂ := by
  rw [groupCandidates_eq_groupSpec, groupCandidates_eq_groupSpec]
  exact groupSpec_perm hp

/-! ### Projections of `classifyGroups` -/

theorem classifyGroups_finalTheat (gT gD : List DateGroup) :
    (classifyGroups gT gD).finalTheat = gT.head? := rfl

theorem classifyGroups_finalDig_some (gT gD : List DateGroup) (t0 : DateGroup)
    (h : gT.head? = some t0) :
    (classifyGroups gT gD).finalDig = if gD.isEmpty then [] else walkDigital t0 gD := by
  unfold classifyGroups
  simp only [h]

theorem classifyGroups_finalDig_none (gT gD : List DateGroup)
    (h : gT.head? = none) :
    (classifyGroups gT gD).finalDig = if gD.isEmpty then [] else gD.take 1 := by
  unfold classifyGroups
  simp only [h]

theorem walkDigital_mem_suspicious (t : DateGroup) (l : List DateGroup) :
    ∀ g ∈ walkDigital t l, (g.isSuspicious = true ↔ g.date < t.date) := by
  induction l with
  | nil => simp [walkDigital]
  | cons g rest ih =>
    by_cases h : g.date < t.date
    · simp only [walkDigital, if_pos h, List.mem_cons]
      rintro g' (rfl | hg')
      · simpa using h
      · exact ih g' hg'
    · simp only [walkDigital, if_neg h, List.mem_singleton]
      rintro g' rfl
      simpa using h

theorem groupCandidates_ne_nil {l : List Candidate} (h : l ≠ []) :
    groupCandidates l ≠ [] := by
  obtain ⟨_, H2, _, _⟩ := groupCandidates_chars l
  cases l with
  | nil => exact absurd rfl h
  | cons c rest =>
    intro hc
    have hmem := (H2 c.date).mpr (by simp)
    rw [hc] at hmem
    simp at hmem

/-! ### Claim theorems -/

/-- C3: the movie classifier's canonical theatrical result is the group with the
earliest theatrical date (head of the grouped theatrical list, which is minimal
among all theatrical groups) when at least one theatrical candidate exists, and
absent when the theatrical candidate list is empty. -/
theorem C3_theatrical_selection (t d : List Candidate) :
    (t = [] → (classifyMovie t d).finalTheat = none)
    ∧ (t ≠ [] → ∃ g : DateGroup, (classifyMovie t d).finalTheat = some g
        ∧ (groupCandidates t).head? = some g
        ∧ g ∈ groupCandidates t
        ∧ ∀ g2 ∈ groupCandidates t, g.date ≤ g2.date) := by
  constructor
  · rintro rfl
    rfl
  · intro ht
    obtain ⟨H1, _, _, _⟩ := groupCandidates_chars t
    obtain ⟨g, R, hGR⟩ := List.exists_cons_of_ne_nil (groupCandidates_ne_nil ht)
    refine ⟨g, ?_, ?_, ?_, ?_⟩
    · rw [classifyMovie, classifyGroups_finalTheat, hGR]
      rfl
    · rw [hGR]
      rfl
    · rw [hGR]
      exact List.mem_cons_self g R
    · intro g2 hg2
      rw [hGR] at hg2 H1
      simp only [List.map_cons, List.pairwise_cons] at H1
      rcases List.mem_cons.mp hg2 with rfl | hg2
      · exact le_refl _
      · exact le_of_lt (H1.1 g2.date (List.mem_map_of_mem DateGroup.date hg2))

/-- C4: when a canonical theatrical group `g0` exists, the reported digital
groups are exactly the digital groups strictly before `g0.date`, each marked
suspicious, followed by the first digital group at or after `g0.date` (if any),
unmarked; everything after that boundary is dropped. The output is ascending by
date and a group is marked suspicious exactly when it is strictly earlier than
the theatrical date. -/
theorem C4_suspicious_boundary (t d : List Candidate) (g0 : DateGroup)
    (hT : (classifyMovie t d).finalTheat = some g0) :
    (classifyMovie t d).finalDig =
      (((groupCandidates d).takeWhile fun g => decide (g.date < g0.date)).map
        fun g => { g with isSuspicious := true })
      ++ ((((groupCandidates d).dropWhile fun g => decide (g.date < g0.date)).take 1).map
        fun g => { g with isSuspicious := false })
    ∧ (∀ g ∈ (classifyMovie t d).finalDig, g.isSuspicious = true ↔ g.date < g0.date)
    ∧ ((classifyMovie t d).finalDig.map DateGroup.date).Pairwise (· < ·) := by
  have hT' : (groupCandidates t).head? = some g0 := hT
  have hfd : (classifyMovie t d).finalDig = walkDigital g0 (groupCandidates d) := by
    rw [classifyMovie, classifyGroups_finalDig_some _ _ g0 hT']
    cases hD : groupCandidates d with
    | nil => rfl
    | cons g R => rfl
  obtain ⟨HD1, _, _, _⟩ := groupCandidates_chars d
  refine ⟨?_, ?_, ?_⟩
  · rw [hfd, walkDigital_eq]
  · rw [hfd]
    exact walkDigital_mem_suspicious g0 (groupCandidates d)
  · rw [hfd]
    exact HD1.sublist (walkDigital_map_date_sublist g0 (groupCandidates d))

/-- C5: when there are no theatrical candidates but there are digital
candidates, the classifier reports exactly one digital group — the earliest,
which is minimal among all digital groups — with its suspicious flag false,
and drops every other digital group. -/
theorem C5_no_theatrical_fallback (t d : List Candidate) (ht : t = []) (hd : d ≠ []) :
    (classifyMovie t d).finalTheat = none
    ∧ ∃ g : DateGroup, (groupCandidates d).head? = some g
        ∧ (classifyMovie t d).finalDig = [g]
        ∧ g.isSuspicious = false
        ∧ ∀ g2 ∈ groupCandidates d, g.date ≤ g2.date := by
  subst ht
  obtain ⟨H1, _, H3, _⟩ := groupCandidates_chars d
  obtain ⟨g, R, hGR⟩ := List.exists_cons_of_ne_nil (groupCandidates_ne_nil hd)
  refine ⟨rfl, g, ?_, ?_, ?_, ?_⟩
  · rw [hGR]
    rfl
  · rw [classifyMovie,
      classifyGroups_finalDig_none (groupCandidates []) (groupCandidates d) rfl, hGR]
    rfl
  · exact (H3 g (by rw [hGR]; exact List.mem_cons_self g R)).1
  · intro g2 hg2
    rw [hGR] at hg2 H1
    simp only [List.map_cons, List.pairwise_cons] at H1
    rcases List.mem_cons.mp hg2 with rfl | hg2
    · exact le_refl _
    · exact le_of_lt (H1.1 g2.date (List.mem_map_of_mem DateGroup.date hg2))

/-- C9: classification is idempotent — applying the movie classification step
to the date groups it has already produced (the theatrical group as a
singleton grouped list, the reported digital groups as the grouped digital
list) yields the same ReleaseSummary. -/
theorem C9_classification_idempotent (gT gD : List DateGroup) :
    classifyGroups ((classifyGroups gT gD).finalTheat.toList)
      ((classifyGroups gT gD).finalDig) = classifyGroups gT gD := by
  cases hT : gT.head? with
  | none =>
    have h1 : (classifyGroups gT gD).finalTheat = none := by
      rw [classifyGroups_finalTheat, hT]
    have h2 := classifyGroups_finalDig_none gT gD hT
    cases hD : gD with
    | nil =>
      simp only [hD] at h2
      unfold classifyGroups
      simp [h1, h2, hT]
    | cons g R =>
      simp only [hD, List.isEmpty_cons, Bool.false_eq_true, if_false, List.take_succ_cons,
        List.take_zero] at h2
      unfold classifyGroups
      simp [h1, h2, hT]
  | some t0 =>
    have h1 : (classifyGroups gT gD).finalTheat = some t0 := by
      rw [classifyGroups_finalTheat, hT]
    have h2 := classifyGroups_finalDig_some gT gD t0 hT
    cases hD : gD with
    | nil =>
      simp only [hD] at h2
      unfold classifyGroups
      simp [h1, h2, hT]
    | cons g R =>
      simp only [hD, List.isEmpty_cons, Bool.false_eq_true, if_false] at h2
      unfold classifyGroups
      simp only [h1, h2, hT, Option.toList_some, List.head?_cons]
      cases hW : walkDigital t0 (g :: R) with
      | nil => simp
      | cons w W =>
        simp only [List.isEmpty_cons, Bool.false_eq_true, if_false]
        rw [← hW, walkDigital_idem]

/-- C1: for any permutation of the same candidate multisets, the grouper and
the movie classifier built on it yield identical output — the same sequence of
date groups and the same ReleaseSummary. -/
theorem C1_grouping_determinism (t₁ t₂ d₁ d₂ : List Candidate)
    (ht : t₁.Perm t₂) (hd : d₁.Perm d₂) :
    groupCandidates t₁ = groupCandidates t₂
    ∧ groupCandidates d₁ = groupCandidates d₂
    ∧ classifyMovie t₁ d₁ = classifyMovie t₂ d₂ := by
  refine ⟨groupCandidates_perm ht, groupCandidates_perm hd, ?_⟩
  unfold classifyMovie
  rw [groupCandidates_perm ht, groupCandidates_perm hd]

/-- C2: the grouper's output is strictly ascending by date, with one group per
distinct input date (so the group count equals the distinct-date count); each
group's region list is the deduplicated, sorted set of regions observed for
that date, and the union of regions over all groups is the set of input
regions. -/
theorem C2_grouping_guarantee (l : List Candidate) :
    ((groupCandidates l).map DateGroup.date).Pairwise (· < ·)
    ∧ (groupCandidates l).length = ((l.map Candidate.date).dedup).length
    ∧ (∀ d : Int, (∃ g ∈ groupCandidates l, g.date = d) ↔ ∃ c ∈ l, c.date = d)
    ∧ (∀ g ∈ groupCandidates l, g.countries.Nodup ∧ g.countries.Pairwise (· ≤ ·)
        ∧ ∀ st : String, st ∈ g.countries ↔ ∃ c ∈ l, c.date = g.date ∧ c.country = st)
    ∧ (∀ st : String, (∃ g ∈ groupCandidates l, st ∈ g.countries) ↔
        ∃ c ∈ l, c.country = st) := by
  obtain ⟨H1, H2, H3, H4⟩ := groupCandidates_chars l
  refine ⟨H1, H4, ?_, ?_, ?_⟩
  · intro d
    constructor
    · rintro ⟨g, hg, rfl⟩
      have := (H2 g.date).mp (List.mem_map_of_mem DateGroup.date hg)
      obtain ⟨c, hc, hcd⟩ := List.mem_map.mp this
      exact ⟨c, hc, hcd⟩
    · rintro ⟨c, hc, rfl⟩
      have := (H2 c.date).mpr (List.mem_map_of_mem Candidate.date hc)
      obtain ⟨g, hg, hgd⟩ := List.mem_map.mp this
      exact ⟨g, hg, hgd⟩
  · intro g hg
    obtain ⟨_, s2, s3, s4⟩ := H3 g hg
    exact ⟨s2, s3, s4⟩
  · intro st
    constructor
    · rintro ⟨g, hg, hst⟩
      obtain ⟨_, _, _, s4⟩ := H3 g hg
      obtain ⟨c, hc, _, hcs⟩ := (s4 st).mp hst
      exact ⟨c, hc, hcs⟩
    · rintro ⟨c, hc, rfl⟩
      have := (H2 c.date).mpr (List.mem_map_of_mem Candidate.date hc)
      obtain ⟨g, hg, hgd⟩ := List.mem_map.mp this
      obtain ⟨_, _, _, s4⟩ := H3 g hg
      exact ⟨g, hg, (s4 c.country).mpr ⟨c, hc, hgd.symm, rfl⟩⟩

/-- C6: the series label logic — a next-episode record fixes the target date
with no label; otherwise a last-episode record fixes the target date and the
label is "(Last Season)" exactly when the season lookup succeeded with exactly
one distinct air date, and "(Last Episode, Last Season)" in every other case;
with neither record, both are absent. -/
theorem C6_series_label (lastEp : Option Int)
    (lookup : Except Unit (Option (List (Option String)))) :
    (∀ dn : Int, ∀ nextEp : Option Int, nextEp = some dn →
        classifySeries nextEp lastEp lookup = { targetDate := some dn, labelText := "" })
    ∧ (∀ dl : Int, lastEp = some dl →
        (classifySeries none lastEp lookup).targetDate = some dl
        ∧ ((classifySeries none lastEp lookup).labelText = "(Last Season)" ↔
            ∃ eps, lookup = Except.ok eps ∧ (seasonAirDates eps).length = 1)
        ∧ ((classifySeries none lastEp lookup).labelText = "(Last Episode, Last Season)" ↔
            ¬ ∃ eps, lookup = Except.ok eps ∧ (seasonAirDates eps).length = 1))
    ∧ (lastEp = none → classifySeries none lastEp lookup =
        { targetDate := none, labelText := "" }) := by
  refine ⟨?_, ?_, ?_⟩
  · rintro dn nextEp rfl
    rfl
  · rintro dl rfl
    cases lookup with
    | ok eps =>
      by_cases h1 : (seasonAirDates eps).length = 1
      · refine ⟨rfl, ?_, ?_⟩
        · simp only [classifySeries, if_pos h1]
          exact ⟨fun _ => ⟨eps, rfl, h1⟩, fun _ => trivial⟩
        · simp only [classifySeries, if_pos h1]
          constructor
          · intro hcontra
            exact absurd hcontra (by decide)
          · intro hne
            exact absurd ⟨eps, rfl, h1⟩ hne
      · refine ⟨rfl, ?_, ?_⟩
        · simp only [classifySeries, if_neg h1]
          constructor
          · intro hcontra
            exact absurd hcontra (by decide)
          · rintro ⟨eps', heq, hlen⟩
            cases heq
            exact absurd hlen h1
        · simp only [classifySeries, if_neg h1]
          refine ⟨fun _ => ?_, fun _ => trivial⟩
          rintro ⟨eps', heq, hlen⟩
          cases heq
          exact absurd hlen h1
    | error e =>
      refine ⟨rfl, ?_, ?_⟩
      · simp only [classifySeries]
        constructor
        · intro hcontra
          exact absurd hcontra (by decide)
        · rintro ⟨eps', heq, _⟩
          cases heq
      · simp only [classifySeries]
        refine ⟨fun _ => ?_, fun _ => trivial⟩
        rintro ⟨eps', heq, _⟩
        cases heq
  · rintro rfl
    rfl

/-- C7: for a last-episode record, no outcome of the season lookup (success,
error, or empty payload) changes the target date, which is always the last
episode's air date; an error or empty payload only forces the label to
"(Last Episode, Last Season)". The embedded classifier is a total function,
so no lookup outcome can make it fail. -/
theorem C7_lookup_failure_policy (d : Int)
    (lookup lookup2 : Except Unit (Option (List (Option String)))) :
    (classifySeries none (some d) lookup).targetDate = some d
    ∧ (classifySeries none (some d) lookup).targetDate
        = (classifySeries none (some d) lookup2).targetDate
    ∧ (∀ e : Unit, (classifySeries none (some d) (Except.error e)).labelText
        = "(Last Episode, Last Season)")
    ∧ (classifySeries none (some d) (Except.ok none)).labelText
        = "(Last Episode, Last Season)"
    ∧ (classifySeries none (some d) (Except.ok (some []))).labelText
        = "(Last Episode, Last Season)" := by
  refine ⟨?_, ?_, fun e => rfl, rfl, rfl⟩
  · cases lookup with
    | ok eps => rfl
    | error e => rfl
  · cases lookup with
    | ok eps =>
      cases lookup2 with
      | ok eps2 => rfl
      | error e2 => rfl
    | error e =>
      cases lookup2 with
      | ok eps2 => rfl
      | error e2 => rfl

/-- C8: degenerate well-formed input yields defined "absent" results, never
errors: the grouper maps the empty list to the empty sequence, no theatrical
candidates give an absent theatrical group, no digital candidates give an
empty digital list, and no episode records give an absent target date and
label. (All embedded core functions are total by construction.) -/
theorem C8_degenerate_inputs :
    groupCandidates [] = []
    ∧ (∀ d : List Candidate, (classifyMovie [] d).finalTheat = none)
    ∧ (∀ t : List Candidate, (classifyMovie t []).finalDig = [])
    ∧ (∀ lookup : Except Unit (Option (List (Option String))),
        classifySeries none none lookup = { targetDate := none, labelText := "" }) := by
  refine ⟨rfl, fun d => rfl, fun t => ?_, fun lookup => rfl⟩
  cases hT : (groupCandidates t).head? with
  | none => rw [classifyMovie, classifyGroups_finalDig_none _ _ hT]; rfl
  | some t0 => rw [classifyMovie, classifyGroups_finalDig_some _ _ t0 hT]; rfl

/-- C10 (counterexample): it is not true that for every non-empty candidate
list the caller's input sequence is left changed — an already date-ascending
list (here a singleton) is left exactly as it was by the in-place sort. -/
theorem C10_counterexample :
    ¬ ∀ l : List Candidate, l ≠ [] → (groupCandidatesRun l).2 ≠ l := by
  intro h
  exact h [{ date := 0, country := "US" }] (by simp) (by simp [groupCandidatesRun])

/-- C10 (amended): the grouper is not observationally pure on its argument:
for every non-empty candidate list the caller's array is left reordered in
place, ascending by date — a permutation of the original contents, different
from the input order whenever the input was not already ascending — and every
returned group's date is the date field of some input candidate (the groups
are built from the sorted input's entries). -/
theorem C10_run_effect (l : List Candidate) (hne : l ≠ []) :
    ((groupCandidatesRun l).2.Pairwise fun a b => a.date ≤ b.date)
    ∧ (groupCandidatesRun l).2.Perm l
    ∧ ((¬ l.Pairwise fun a b => a.date ≤ b.date) → (groupCandidatesRun l).2 ≠ l)
    ∧ (∀ g ∈ (groupCandidatesRun l).1, ∃ c ∈ l, c.date = g.date) := by
  have h2 : (groupCandidatesRun l).2 = l.mergeSort candLe := by
    cases l with
    | nil => exact absurd rfl hne
    | cons c rest => simp [groupCandidatesRun]
  refine ⟨?_, ?_, ?_, ?_⟩
  · rw [h2]
    exact pairwise_mergeSort_key Candidate.date l
  · rw [h2]
    exact List.mergeSort_perm l candLe
  · intro hns heq
    apply hns
    have := pairwise_mergeSort_key Candidate.date l
    rw [h2] at heq
    rw [← heq]
    exact this
  · intro g hg
    obtain ⟨_, H2, _, _⟩ := groupCandidates_chars l
    have : g.date ∈ l.map Candidate.date :=
      (H2 g.date).mp (List.mem_map_of_mem DateGroup.date hg)
    obtain ⟨c, hc, hcd⟩ := List.mem_map.mp this
    exact ⟨c, hc, hcd⟩

/-! ### Witnesses -/

theorem C1_grouping_determinism_witness :
    classifyMovie [{ date := 10, country := "US" }, { date := 5, country := "FR" }]
        [{ date := 7, country := "DE" }, { date := 7, country := "AT" }]
      = classifyMovie [{ date := 5, country := "FR" }, { date := 10, country := "US" }]
        [{ date := 7, country := "AT" }, { date := 7, country := "DE" }] :=
  (C1_grouping_determinism _ _ _ _ (by decide) (by decide)).2.2

theorem C2_grouping_guarantee_witness :
    ((groupCandidates [{ date := 3, country := "US" }, { date := 1, country := "FR" },
        { date := 3, country := "FR" }]).map DateGroup.date).Pairwise (· < ·) :=
  (C2_grouping_guarantee _).1

theorem C3_theatrical_selection_witness :
    ∃ g : DateGroup,
      (classifyMovie [{ date := 3, country := "US" }, { date := 1, country := "FR" }]
        []).finalTheat = some g
      ∧ (groupCandidates [{ date := 3, country := "US" },
          { date := 1, country := "FR" }]).head? = some g
      ∧ g ∈ groupCandidates [{ date := 3, country := "US" }, { date := 1, country := "FR" }]
      ∧ ∀ g2 ∈ groupCandidates [{ date := 3, country := "US" },
          { date := 1, country := "FR" }], g.date ≤ g2.date :=
  (C3_theatrical_selection _ _).2 (by decide)

unseal List.merge List.mergeSort in
theorem C4_suspicious_boundary_witness :
    (classifyMovie [{ date := 10, country := "US" }]
        [{ date := 5, country := "FR" }, { date := 20, country := "DE" }]).finalDig =
      (((groupCandidates [{ date := 5, country := "FR" },
          { date := 20, country := "DE" }]).takeWhile
        fun g => decide (g.date < (10 : Int))).map fun g => { g with isSuspicious := true })
      ++ ((((groupCandidates [{ date := 5, country := "FR" },
          { date := 20, country := "DE" }]).dropWhile
        fun g => decide (g.date < (10 : Int))).take 1).map
        fun g => { g with isSuspicious := false })
    ∧ (∀ g ∈ (classifyMovie [{ date := 10, country := "US" }]
        [{ date := 5, country := "FR" }, { date := 20, country := "DE" }]).finalDig,
        g.isSuspicious = true ↔ g.date < (10 : Int))
    ∧ (((classifyMovie [{ date := 10, country := "US" }]
        [{ date := 5, country := "FR" }, { date := 20, country := "DE" }]).finalDig.map
        DateGroup.date).Pairwise (· < ·)) :=
  C4_suspicious_boundary [{ date := 10, country := "US" }]
    [{ date := 5, country := "FR" }, { date := 20, country := "DE" }]
    { date := 10, countries := ["US"], isSuspicious := false } (by decide)

theorem C5_no_theatrical_fallback_witness :
    (classifyMovie [] [{ date := 5, country := "US" },
        { date := 6, country := "FR" }]).finalTheat = none
    ∧ ∃ g : DateGroup,
        (groupCandidates [{ date := 5, country := "US" },
          { date := 6, country := "FR" }]).head? = some g
        ∧ (classifyMovie [] [{ date := 5, country := "US" },
            { date := 6, country := "FR" }]).finalDig = [g]
        ∧ g.isSuspicious = false
        ∧ ∀ g2 ∈ groupCandidates [{ date := 5, country := "US" },
            { date := 6, country := "FR" }], g.date ≤ g2.date :=
  C5_no_theatrical_fallback [] _ rfl (by decide)

theorem C6_series_label_witness :
    (classifySeries none (some 100)
        (Except.ok (some [some "2024-01-01", some "2024-01-01"]))).targetDate = some 100
    ∧ ((classifySeries none (some 100)
        (Except.ok (some [some "2024-01-01", some "2024-01-01"]))).labelText
          = "(Last Season)" ↔
        ∃ eps, (Except.ok (some [some "2024-01-01", some "2024-01-01"]) :
            Except Unit (Option (List (Option String)))) = Except.ok eps
          ∧ (seasonAirDates eps).length = 1) :=
  have h := (C6_series_label (some 100)
    (Except.ok (some [some "2024-01-01", some "2024-01-01"]))).2.1 100 rfl
  ⟨h.1, h.2.1⟩

theorem C7_lookup_failure_policy_witness :
    (classifySeries none (some 42) (Except.error ())).targetDate = some 42
    ∧ (classifySeries none (some 42) (Except.ok none)).labelText
        = "(Last Episode, Last Season)" :=
  ⟨(C7_lookup_failure_policy 42 (Except.error ()) (Except.ok none)).1,
    (C7_lookup_failure_policy 42 (Except.error ()) (Except.ok none)).2.2.2.1⟩

theorem C8_degenerate_inputs_witness : groupCandidates [] = [] :=
  C8_degenerate_inputs.1

theorem C9_classification_idempotent_witness :
    classifyGroups
      ((classifyGroups [{ date := 1, countries := ["US"], isSuspicious := false }]
        []).finalTheat.toList)
      ((classifyGroups [{ date := 1, countries := ["US"], isSuspicious := false }]
        []).finalDig)
    = classifyGroups [{ date := 1, countries := ["US"], isSuspicious := false }] [] :=
  C9_classification_idempotent _ _

theorem C10_run_effect_witness :
    (groupCandidatesRun [{ date := 5, country := "US" },
      { date := 3, country := "FR" }]).2
      ≠ [{ date := 5, country := "US" }, { date := 3, country := "FR" }] :=
  (C10_run_effect [{ date := 5, country := "US" }, { date := 3, country := "FR" }]
    (by decide)).2.2.1 (by decide)

end RDF
